import Mathlib

/-!
# Verification of the attentive-guidance decoder, sparsity controller and losses

Shallow embedding of the core logic of the repository:

* `src/models/decoder.py` — `DecoderRNN.__init__` / `DecoderRNN.forward`
  (dual-mode decode loop, length bookkeeping, top-k sparsity masking);
* `src/callbacks.py` — `KSParsityDecreaser.on_epoch_end`;
* `src/loss.py` — `L1Loss`.

Tensors are modelled as lists of final-dimension rows of integers; the
recurrent cell, the symbol projection and the initial-state computation live
in the external `machine` library and are modelled as abstract functions at
their interface, as described in the design document.
-/

set_option maxHeartbeats 1000000

/-- A tensor, seen as the list of its final-dimension rows
(the leading dimensions are flattened; every operation the decoder performs
on encoder tensors acts row-wise along the final dimension). -/
abbrev Tensor := List (List Int)

/-! ## Top-k sparsity gate (`decoder.py` lines 133–143)

The source computes `indices = t.abs().topk(k)[1]`, scatters `1` into a fresh
zero mask at those indices and multiplies.  `torch.topk` returns, per row, the
indices of the `k` entries of largest value of `t.abs()`; its tie order is
implementation defined, so we fix one concrete, stable order (largest absolute
value first, ties broken towards the smaller index). -/

/-- Of two indices, the one whose entry in `xs` has the larger absolute
value; on ties the first index wins. -/
def pickBetter (xs : List Int) (i j : Nat) : Nat :=
  if (xs.getD j 0).natAbs > (xs.getD i 0).natAbs then j else i

/-- The index (among `avail`) whose entry in `xs` has the largest absolute
value; on ties the earliest listed index wins. -/
def pickMax (xs : List Int) : List Nat → Option Nat
  | [] => none
  | i :: rest =>
    match pickMax xs rest with
    | none => some i
    | some j => some (pickBetter xs i j)

theorem pickBetter_eq_or (xs : List Int) (i j : Nat) :
    pickBetter xs i j = i ∨ pickBetter xs i j = j := by
  unfold pickBetter
  split
  · exact Or.inr rfl
  · exact Or.inl rfl

theorem le_pickBetter_left (xs : List Int) (i j : Nat) :
    (xs.getD i 0).natAbs ≤ (xs.getD (pickBetter xs i j) 0).natAbs := by
  unfold pickBetter
  split
  · rename_i h; exact le_of_lt h
  · exact le_refl _

theorem le_pickBetter_right (xs : List Int) (i j : Nat) :
    (xs.getD j 0).natAbs ≤ (xs.getD (pickBetter xs i j) 0).natAbs := by
  unfold pickBetter
  split
  · exact le_refl _
  · rename_i h; exact Nat.le_of_not_lt h

/-- Greedy selection of indices in decreasing order of absolute value.
`fuel` bounds the number of selections. -/
def selGo (xs : List Int) : Nat → List Nat → List Nat
  | 0, _ => []
  | fuel + 1, avail =>
    match pickMax xs avail with
    | none => []
    | some i => i :: selGo xs fuel (avail.erase i)

/-- All indices of `xs`, ordered by decreasing absolute value of their entry
(stable on ties). -/
def selOrder (xs : List Int) : List Nat :=
  selGo xs xs.length (List.range xs.length)

/-- `t.abs().topk(k)[1]` for one final-dimension row: the indices of the `k`
entries of largest absolute value. -/
def topkIdx (k : Nat) (xs : List Int) : List Nat :=
  (selOrder xs).take k

/-- One row of `t * mask` where `mask` is zero except for ones scattered at
`topkIdx k xs` (`decoder.py` lines 135–138 resp. 140–143). -/
def maskRow (k : Nat) (xs : List Int) : List Int :=
  (List.range xs.length).map fun j =>
    xs.getD j 0 * (if j ∈ topkIdx k xs then 1 else 0)

/-- The top-k sparsity gate applied to a whole tensor, row by row along the
final dimension. -/
def sparsityGate (k : Nat) (t : Tensor) : Tensor :=
  t.map (maskRow k)

/-- Number of non-zero entries of a row. -/
def countNZ (xs : List Int) : Nat :=
  xs.countP (fun x => decide (x ≠ 0))

/-! ### Basic facts about the greedy top-k selection -/

theorem pickMax_mem {xs : List Int} :
    ∀ {avail : List Nat} {i : Nat}, pickMax xs avail = some i → i ∈ avail := by
  intro avail
  induction avail with
  | nil => intro i h; simp [pickMax] at h
  | cons a rest ih =>
    intro i h
    simp only [pickMax] at h
    cases hrec : pickMax xs rest with
    | none => rw [hrec] at h; cases h; exact List.mem_cons_self a rest
    | some j =>
      rw [hrec] at h
      cases h
      rcases pickBetter_eq_or xs a j with he | he <;> rw [he]
      · exact List.mem_cons_self a rest
      · exact List.mem_cons_of_mem _ (ih hrec)

theorem pickMax_eq_none {xs : List Int} :
    ∀ {avail : List Nat}, pickMax xs avail = none ↔ avail = [] := by
  intro avail
  cases avail with
  | nil => simp [pickMax]
  | cons a rest =>
    simp only [pickMax]
    cases hrec : pickMax xs rest with
    | none => simp
    | some j => simp

theorem pickMax_is_max {xs : List Int} :
    ∀ {avail : List Nat} {i : Nat}, pickMax xs avail = some i →
      ∀ j ∈ avail, (xs.getD j 0).natAbs ≤ (xs.getD i 0).natAbs := by
  intro avail
  induction avail with
  | nil => intro i h; simp [pickMax] at h
  | cons a rest ih =>
    intro i h j hj
    simp only [pickMax] at h
    cases hrec : pickMax xs rest with
    | none =>
      rw [hrec] at h
      cases h
      rcases List.mem_cons.mp hj with rfl | hjr
      · exact le_refl _
      · rw [pickMax_eq_none.mp hrec] at hjr; simp at hjr
    | some b =>
      rw [hrec] at h
      cases h
      rcases List.mem_cons.mp hj with rfl | hjr
      · exact le_pickBetter_left xs j b
      · exact le_trans (ih hrec j hjr) (le_pickBetter_right xs a b)

/-! ## The decoder (`decoder.py`)

The recurrent machinery (`self.forward_step`, `self._init_state`, the symbol
projection `output.topk(1)[1]`) lives in the external `machine` library and in
`attention.py`; per the design document these are opaque per-position
functions: one decoding step maps the current hidden state and the batch of
input tokens to a new hidden state and a batch of output distributions, and a
batched `forward_step` call over a whole input sequence performs exactly the
per-position steps in order (post-rnn attention and the output projection act
position-wise on fixed encoder memory).  They are therefore modelled as
abstract fields of `DecoderModel`. -/

/-- Attention placement (`use_attention` is `False`, `'pre-rnn'` or
`'post-rnn'`). -/
inductive AttnPlace where
  | preRnn
  | postRnn
deriving DecidableEq

/-- Names of the tensors the sparsity gate may be applied to
(`k_sparsity_layers`). -/
inductive KLayer where
  | encoderHidden
  | encoderOutputs
deriving DecidableEq

/-- The state of one `DecoderRNN` module, restricted to the fields read by
`forward`, together with the interface functions of the external recurrent
machinery:

* `cell eo h x` — one application of `self.forward_step` to a single
  position: hidden state `h`, batch of input tokens `x`, encoder outputs `eo`;
  returns the new hidden state and the batch of output distributions;
* `argmaxSym o` — `o.topk(1)[1]`: the greedy symbol of each example;
* `initStateFn` — `self._init_state` applied to the encoder hidden state. -/
structure DecoderModel (σ ω : Type) where
  use_k_sparsity : Bool
  k_sparsity : Int
  k_sparsity_layers : Option (List KLayer)
  use_attention : Option AttnPlace
  eos_id : Int
  cell : Option Tensor → σ → List Int → σ × ω
  argmaxSym : ω → List Int
  initStateFn : Option Tensor → σ

/-- The pass-scoped decode bookkeeping of `DecoderRNN.forward`:
`decoder_outputs`, `sequence_symbols` and the per-example `lengths` array.
(The per-step attention-score list of `ret_dict` is not modelled; no claim
mentions it.) -/
structure DecState (ω : Type) where
  decoder_outputs : List ω
  sequence_symbols : List (List Int)
  lengths : List Nat

/-- `decoder_outputs = []`, `sequence_symbols = []`,
`lengths = np.array([max_length] * batch_size)`. -/
def initDecState (ω : Type) (batch_size max_length : Nat) : DecState ω :=
  ⟨[], [], List.replicate batch_size max_length⟩

/-- The inner closure `decode(step, step_output, step_attn)` of
`DecoderRNN.forward` (`decoder.py` lines 153–165): append the step output,
take the greedy symbol of each example, and for every example whose symbol is
`eos_id` and whose recorded length still exceeds the step index, overwrite the
length with `len(sequence_symbols)`.  Returns the new state and the symbols
(`decoder_outputs[-1]` is the output just appended, so its greedy symbol is
`argmaxSym step_output`). -/
def decode (eos_id : Int) (argmaxSym : ω → List Int) (step : Nat)
    (step_output : ω) (s : DecState ω) : DecState ω × List Int :=
  let decoder_outputs := s.decoder_outputs ++ [step_output]
  let symbols := argmaxSym step_output
  let sequence_symbols := s.sequence_symbols ++ [symbols]
  let eos_batches := symbols.map (fun sy => decide (sy = eos_id))
  let lengths := List.zipWith
    (fun l e => if step < l ∧ e = true then sequence_symbols.length else l)
    s.lengths eos_batches
  (⟨decoder_outputs, sequence_symbols, lengths⟩, symbols)

/-- Fold `decode` over a list of per-position step outputs with consecutive
step indices, as the batched branch of `forward` does after its single
recurrent call (`decoder.py` lines 207–213). -/
def runDecode (eos_id : Int) (argmaxSym : ω → List Int) :
    Nat → DecState ω → List ω → DecState ω
  | _, s, [] => s
  | di, s, o :: os =>
    runDecode eos_id argmaxSym (di + 1) (decode eos_id argmaxSym di o s).1 os

/-- One batched `forward_step` call on a whole input sequence: the external
recurrent cell processes the positions in order, threading the hidden state,
and returns all per-position outputs at once together with the final hidden
state. -/
def runSteps (cellE : σ → List Int → σ × ω) (h : σ) :
    List (List Int) → List ω × σ
  | [] => ([], h)
  | x :: xs =>
    let st := cellE h x
    let rest := runSteps cellE st.1 xs
    (st.2 :: rest.1, rest.2)

/-- The unrolled branch of `DecoderRNN.forward` (`decoder.py` lines
176–195): at step `0`, or whenever teacher forcing is active, the input is
`inputs[:, di]`; otherwise it is the symbols decoded at the previous step.
Arguments after `inputs`: current step index `di`, remaining step count,
hidden state, previous symbols, decode bookkeeping. -/
def unrollLoop (cellE : σ → List Int → σ × ω) (eos_id : Int)
    (argmaxSym : ω → List Int) (use_teacher_forcing : Bool)
    (inputs : List (List Int)) :
    Nat → Nat → σ → List Int → DecState ω → σ × DecState ω
  | _, 0, h, _, s => (h, s)
  | di, n + 1, h, symbols, s =>
    let decoder_input :=
      if di = 0 ∨ use_teacher_forcing = true then inputs.getD di [] else symbols
    let st := cellE h decoder_input
    let dec := decode eos_id argmaxSym di st.2 s
    unrollLoop cellE eos_id argmaxSym use_teacher_forcing inputs
      (di + 1) n st.1 dec.2 dec.1

/-- The stream of per-step output distributions produced by the unrolled
branch (the decode bookkeeping does not influence it: the symbols fed back
are always the greedy symbols of the previous output). -/
def unrollOutputs (cellE : σ → List Int → σ × ω) (argmaxSym : ω → List Int)
    (use_teacher_forcing : Bool) (inputs : List (List Int)) :
    Nat → Nat → σ → List Int → List ω
  | _, 0, _, _ => []
  | di, n + 1, h, symbols =>
    let decoder_input :=
      if di = 0 ∨ use_teacher_forcing = true then inputs.getD di [] else symbols
    let st := cellE h decoder_input
    st.2 :: unrollOutputs cellE argmaxSym use_teacher_forcing inputs
      (di + 1) n st.1 (argmaxSym st.2)

/-- Everything `DecoderRNN.forward` returns: the per-step output
distributions, the final hidden state, and the modelled entries of
`ret_dict` (`encoder_hidden`/`encoder_outputs` passthrough, `KEY_SEQUENCE`,
`KEY_LENGTH`).  `modelAfter` is the decoder module as it stands after the
call (`forward` assigns no attribute of `self`). -/
structure ForwardResult (σ ω : Type) where
  decoder_outputs : List ω
  decoder_hidden : σ
  ret_enc_hidden : Option Tensor
  ret_enc_outputs : Option Tensor
  ret_sequence : List (List Int)
  ret_lengths : List Nat
  modelAfter : DecoderModel σ ω

/-- The k-sparsity masking of `decoder.py` lines 133–143: when enabled, mask
`encoder_hidden` if `'encoder_hidden'` is among the configured layers, `elif`
mask `encoder_outputs`.  The result is a fresh masked value; the arguments
are untouched.  (`k_sparsity_layers` is never `None` here for a
constructor-validated module; `getD []` stands for that guarantee.) -/
def maskTensors (m : DecoderModel σ ω) (encoder_hidden encoder_outputs : Option Tensor) :
    Option Tensor × Option Tensor :=
  if m.use_k_sparsity then
    let layers := m.k_sparsity_layers.getD []
    if KLayer.encoderHidden ∈ layers then
      (encoder_hidden.map (sparsityGate m.k_sparsity.toNat), encoder_outputs)
    else if KLayer.encoderOutputs ∈ layers then
      (encoder_hidden, encoder_outputs.map (sparsityGate m.k_sparsity.toNat))
    else (encoder_hidden, encoder_outputs)
  else (encoder_hidden, encoder_outputs)

/-- `batch_size` and `max_length` as computed by the upstream
`machine.models.DecoderRNN._validate_args` when a target sequence is
supplied: `batch_size = inputs.size(0)` and
`max_length = inputs.size(1) - 1` (minus the start-of-sequence symbol).
Modelled from the spec: `_validate_args` is external `machine` code; §4.1 of
the design document takes the maximum decode length from the supplied target
sequence. -/
def validatedSizes (inputs : List (List Int)) : Nat × Nat :=
  ((inputs.headD []).length, inputs.length - 1)

/-- The unrolled branch of `DecoderRNN.forward`, from the shared prelude
(ret-dict recording, argument validation, sparsity masking, decoder state
initialisation) to the returned values. -/
def unrolledResult (m : DecoderModel σ ω) (inputs : List (List Int))
    (encoder_hidden encoder_outputs : Option Tensor)
    (use_teacher_forcing : Bool) : ForwardResult σ ω :=
  let sizes := validatedSizes inputs
  let masked := maskTensors m encoder_hidden encoder_outputs
  let decoder_hidden := m.initStateFn masked.1
  let run := unrollLoop (m.cell masked.2) m.eos_id m.argmaxSym
    use_teacher_forcing inputs 0 sizes.2 decoder_hidden []
    (initDecState ω sizes.1 sizes.2)
  ⟨run.2.decoder_outputs, run.1, encoder_hidden, encoder_outputs,
    run.2.sequence_symbols, run.2.lengths, m⟩

/-- The batched branch of `DecoderRNN.forward`: one recurrent call over
`inputs[:, :-1]` followed by the per-position decode loop. -/
def batchedResult (m : DecoderModel σ ω) (inputs : List (List Int))
    (encoder_hidden encoder_outputs : Option Tensor) : ForwardResult σ ω :=
  let sizes := validatedSizes inputs
  let masked := maskTensors m encoder_hidden encoder_outputs
  let decoder_hidden := m.initStateFn masked.1
  let decoder_input := inputs.dropLast
  let stepped := runSteps (m.cell masked.2) decoder_hidden decoder_input
  let st := runDecode m.eos_id m.argmaxSym 0
    (initDecState ω sizes.1 sizes.2) stepped.1
  ⟨st.decoder_outputs, stepped.2, encoder_hidden, encoder_outputs,
    st.sequence_symbols, st.lengths, m⟩

/-- Mode selection of `DecoderRNN.forward` (`decoder.py` line 171): unroll
step-by-step iff attention is placed pre-rnn or teacher forcing is off. -/
def forwardCore (m : DecoderModel σ ω) (inputs : List (List Int))
    (encoder_hidden encoder_outputs : Option Tensor)
    (use_teacher_forcing : Bool) : ForwardResult σ ω :=
  if m.use_attention = some AttnPlace.preRnn ∨ use_teacher_forcing = false then
    unrolledResult m inputs encoder_hidden encoder_outputs use_teacher_forcing
  else
    batchedResult m inputs encoder_hidden encoder_outputs

/-- `DecoderRNN.forward`.  Randomness is modelled by a stream `rs` of draws
of `random.random()` together with the current position in the stream; the
call draws exactly once (`use_teacher_forcing = random.random() < tfr`,
`decoder.py` line 147) and returns the advanced position. -/
def DecoderRNN.forward (m : DecoderModel σ ω) (inputs : List (List Int))
    (encoder_hidden encoder_outputs : Option Tensor) (tfr : Rat)
    (rs : Nat → Rat) (pos : Nat) : ForwardResult σ ω × Nat :=
  let use_teacher_forcing := decide (rs pos < tfr)
  (forwardCore m inputs encoder_hidden encoder_outputs use_teacher_forcing,
    pos + 1)

/-! ## The sparsity controller (`callbacks.py` lines 38–69) -/

/-- Python `int(...)` applied to a rational: truncation toward zero. -/
def pyInt (q : Rat) : Int :=
  if 0 ≤ q then ⌊q⌋ else ⌈q⌉

/-- `KSParsityDecreaser` state.  `k_sparsity` stands for
`self.model.k_sparsity`, the decoder field the controller writes; the comet
experiment handle is pure logging and not modelled. -/
structure KSParsityDecreaser where
  factor : Rat
  patience : Nat
  best : Rat
  num_bad_epochs : Nat
  k_sparsity : Int
deriving DecidableEq

/-- A freshly constructed controller attached to a decoder whose current
sparsity is `k`: `best = 0`, `num_bad_epochs = 0`. -/
def KSParsityDecreaser.new (factor : Rat) (patience : Nat) (k : Int) :
    KSParsityDecreaser :=
  ⟨factor, patience, 0, 0, k⟩

/-- `KSParsityDecreaser.on_epoch_end` (`callbacks.py` lines 52–64), applied
to the tracked metric value of this epoch's evaluation pass: a non-improving
epoch (`metric_val <= best`) increments the bad-epoch counter, an improving
one resets it and updates `best`; once the counter reaches `patience`, set
`model.k_sparsity = int(factor * model.k_sparsity)` and reset the counter. -/
def KSParsityDecreaser.on_epoch_end (c : KSParsityDecreaser)
    (metric_val : Rat) : KSParsityDecreaser :=
  let c :=
    if metric_val ≤ c.best then
      { c with num_bad_epochs := c.num_bad_epochs + 1 }
    else
      { c with num_bad_epochs := 0, best := metric_val }
  if c.patience ≤ c.num_bad_epochs then
    { c with k_sparsity := pyInt (c.factor * c.k_sparsity),
             num_bad_epochs := 0 }
  else c

/-- The controller observing one epoch-end metric value after another. -/
def runEpochs (c : KSParsityDecreaser) (ms : List Rat) : KSParsityDecreaser :=
  ms.foldl KSParsityDecreaser.on_epoch_end c

/-! ## The L1 loss accumulator (`loss.py` lines 25–49) -/

/-- A Python value that is either still the integer `0` the accumulator was
initialised with, or a tensor scalar. -/
inductive PyNum where
  | int (n : Int)
  | tensor (x : Rat)
deriving DecidableEq

/-- `acc_loss += v` where `v` is a tensor scalar: an int left operand turns
into a tensor. -/
def PyNum.add (a : PyNum) (v : Rat) : PyNum :=
  match a with
  | .int n => .tensor (n + v)
  | .tensor x => .tensor (x + v)

/-- `L1Loss` state: `acc_loss` starts at the integer `0` sentinel and
`norm_term` at `0` (`loss.py` lines 30–31).  The display names and the unused
`criterion` tensor are not modelled. -/
structure L1Loss where
  acc_loss : PyNum
  norm_term : Int
deriving DecidableEq

/-- `L1Loss.__init__`. -/
def L1Loss.new : L1Loss := ⟨.int 0, 0⟩

/-- Sum of the absolute values of all entries of a tensor
(`outputs.abs().sum()`). -/
def absSum (t : Tensor) : Rat :=
  ((t.map (fun row => (row.map Int.natAbs).sum)).sum : Nat)

/-- `L1Loss.get_loss` (`loss.py` lines 34–38): the integer sentinel means no
element was ever accumulated and yields `0`; otherwise the accumulated tensor
scalar is divided by `norm_term` (a Python division by zero raises, hence the
`Except`). -/
def L1Loss.get_loss (l : L1Loss) : Except String Rat :=
  match l.acc_loss with
  | .int _ => .ok 0
  | .tensor x =>
    if l.norm_term = 0 then .error "ZeroDivisionError"
    else .ok (x / (l.norm_term : Rat))

/-- `L1Loss.eval_batch` (`loss.py` lines 40–49).  For the
`model_parameters` input the batch is a list of parameter tensors, each
accumulated separately; otherwise the whole output tensor is accumulated at
once and `norm_term` grows by the batch size (the tensor's leading
dimension). -/
def L1Loss.eval_batch (l : L1Loss) (isModelParams : Bool)
    (outputs : List Tensor) : L1Loss :=
  if isModelParams then
    outputs.foldl
      (fun acc p =>
        ⟨acc.acc_loss.add (absSum p), acc.norm_term + 1⟩) l
  else
    let t := outputs.headD []
    ⟨l.acc_loss.add (absSum t), l.norm_term + t.length⟩

/-! ## `DecoderRNN.__init__` (`decoder.py` lines 63–113) -/

/-- The attention scoring methods accepted by the command line. -/
inductive AttnMethod where
  | dot
  | mlp
  | concat
  | general
deriving DecidableEq

/-- The constructor arguments of `DecoderRNN` that take part in its own
configuration checks and derived fields. -/
structure DecoderArgs where
  hidden_size : Nat
  use_attention : Option AttnPlace
  attention_method : Option AttnMethod
  full_focus : Bool
  use_k_sparsity : Bool
  initial_k_sparsity : Int
  k_sparsity_layers : Option (List KLayer)

/-- The configuration a successfully constructed `DecoderRNN` carries. -/
structure DecoderConfig where
  use_k_sparsity : Bool
  k_sparsity : Int
  k_sparsity_layers : Option (List KLayer)
  use_attention : Option AttnPlace
  attention_method : Option AttnMethod
  full_focus : Bool
  input_size : Nat

/-- `DecoderRNN.__init__`: raise `ValueError` when sparsity is requested with
no target layer (`decoder.py` lines 73–74), then when attention is requested
with no scoring method (lines 82–83); otherwise record the configuration
(the decoder input width doubles for pre-rnn attention without full focus,
lines 89–90).  The external `nn` module constructions are not modelled. -/
def DecoderRNN.init (a : DecoderArgs) : Except String DecoderConfig :=
  if a.use_k_sparsity = true ∧ a.k_sparsity_layers = none then
    .error "To use k_sparsity you must specify at least one k_sparsity_layer"
  else if a.use_attention ≠ none ∧ a.attention_method = none then
    .error "Method for computing attention should be provided"
  else
    .ok
      { use_k_sparsity := a.use_k_sparsity
        k_sparsity := a.initial_k_sparsity
        k_sparsity_layers := a.k_sparsity_layers
        use_attention := a.use_attention
        attention_method := a.attention_method
        full_focus := a.full_focus
        input_size :=
          if a.use_attention = some AttnPlace.preRnn ∧ a.full_focus = false
          then 2 * a.hidden_size else a.hidden_size }

/-- Whether a constructor run raised. -/
def raisesError {ε α : Type} : Except ε α → Bool
  | .error _ => true
  | .ok _ => false

/-! ## Helper facts -/

/-- Python `int()` of an integer-valued rational is that integer. -/
theorem pyInt_intCast (n : Int) : pyInt ((n : Rat)) = n := by
  unfold pyInt
  split
  · exact Int.floor_intCast n
  · exact Int.ceil_intCast n

/-- Truncation of a rational lying between `0` and an integer `c` stays
between `0` and `c`. -/
theorem pyInt_nonneg_le (q : Rat) (c : Int) (h0 : 0 ≤ q) (hc : q ≤ (c : Rat)) :
    0 ≤ pyInt q ∧ pyInt q ≤ c := by
  constructor
  · rw [pyInt, if_pos h0]
    exact Int.floor_nonneg.mpr h0
  · rw [pyInt, if_pos h0]
    calc ⌊q⌋ ≤ ⌊(c : Rat)⌋ := Int.floor_le_floor hc
    _ = c := Int.floor_intCast c

/-! ## C8: construction-time configuration errors -/

/-- C8: constructing a `DecoderRNN` raises exactly when sparsity is enabled
with no target layer designated, or attention is enabled with no scoring
method designated; every other argument combination constructs
successfully. -/
theorem claim_C8_construction_errors (a : DecoderArgs) :
    raisesError (DecoderRNN.init a) = true ↔
      ((a.use_k_sparsity = true ∧ a.k_sparsity_layers = none) ∨
       (a.use_attention ≠ none ∧ a.attention_method = none)) := by
  unfold DecoderRNN.init
  split
  · rename_i h1
    simp [raisesError, h1]
  · rename_i h1
    split
    · rename_i h2
      simp [raisesError, h1, h2]
    · rename_i h2
      simp [raisesError, h1, h2]

/-! ## C9: the loss accumulator's zero sentinel -/

/-- C9: `L1Loss.get_loss` returns exactly `0` while the accumulator still
holds its integer sentinel (in particular on a freshly constructed loss), and
`acc_loss / norm_term` otherwise; the empty-accumulation case performs no
division. -/
theorem claim_C9_empty_loss_sentinel :
    L1Loss.new.get_loss = Except.ok 0 ∧
    (∀ (n m : Int), (L1Loss.mk (.int n) m).get_loss = Except.ok 0) ∧
    (∀ (x : Rat) (m : Int), m ≠ 0 →
      (L1Loss.mk (.tensor x) m).get_loss = Except.ok (x / (m : Rat))) := by
  refine ⟨rfl, fun n m => rfl, fun x m hm => ?_⟩
  simp [L1Loss.get_loss, hm]

/-- Witness for C9 at a concrete accumulator state. -/
theorem claim_C9_witness :
    (L1Loss.mk (.tensor 6) 3).get_loss = Except.ok ((6 : Rat) / ((3 : Int) : Rat)) :=
  claim_C9_empty_loss_sentinel.2.2 6 3 (by decide)

/-! ## C10: encoder tensors are passed through unmodified -/

/-- C10: on every `forward` call the `ret_dict` passthrough entries for the
encoder hidden state and outputs are exactly the tensors as received (they
are recorded before any masking), and when sparsity is enabled for the
encoder hidden state the decoder works on a fresh masked value, the output of
the sparsity gate, rather than on the original. -/
theorem claim_C10_no_mutation {σ ω : Type} :
    (∀ (m : DecoderModel σ ω) (inputs : List (List Int))
       (eh eo : Option Tensor) (tfr : Rat) (rs : Nat → Rat) (pos : Nat),
       (DecoderRNN.forward m inputs eh eo tfr rs pos).1.ret_enc_hidden = eh ∧
       (DecoderRNN.forward m inputs eh eo tfr rs pos).1.ret_enc_outputs = eo) ∧
    (∀ (m : DecoderModel σ ω) (eh eo : Option Tensor),
       m.use_k_sparsity = true →
       KLayer.encoderHidden ∈ m.k_sparsity_layers.getD [] →
       (maskTensors m eh eo).1 = eh.map (sparsityGate m.k_sparsity.toNat) ∧
       (maskTensors m eh eo).2 = eo) := by
  constructor
  · intro m inputs eh eo tfr rs pos
    simp only [DecoderRNN.forward, forwardCore]
    split
    · exact ⟨rfl, rfl⟩
    · exact ⟨rfl, rfl⟩
  · intro m eh eo hks hmem
    unfold maskTensors
    rw [if_pos hks, if_pos hmem]
    exact ⟨rfl, rfl⟩

/-- A concrete decoder module (sparsity on the encoder hidden state,
attention disabled) used to instantiate claims. -/
def demoSparseModel : DecoderModel Unit Unit :=
  { use_k_sparsity := true
    k_sparsity := 1
    k_sparsity_layers := some [KLayer.encoderHidden]
    use_attention := none
    eos_id := 0
    cell := fun _ h _ => (h, ())
    argmaxSym := fun _ => []
    initStateFn := fun _ => () }

/-- Witness for C10: with sparsity enabled on the encoder hidden state, the
tensor the decoder uses is the gate's output while the passthrough keeps the
original. -/
theorem claim_C10_witness :
    (DecoderRNN.forward demoSparseModel [] (some [[3, 5]]) none 0 (fun _ => 0) 0).1.ret_enc_hidden
        = some [[3, 5]] ∧
    (maskTensors demoSparseModel (some [[3, 5]]) none).1
        = (some [[3, 5]]).map (sparsityGate demoSparseModel.k_sparsity.toNat) :=
  ⟨((claim_C10_no_mutation.1 demoSparseModel [] (some [[3, 5]]) none 0 (fun _ => 0) 0)).1,
   ((claim_C10_no_mutation.2 demoSparseModel (some [[3, 5]]) none rfl (by decide))).1⟩

/-! ## C3: one coin flip per call, and mode selection -/

/-- C3: every `forward` call draws exactly one teacher-forcing coin flip
(the stream position advances by one and nothing but the draw at the current
position matters), and the call unrolls step-by-step iff attention is
`'pre-rnn'` or the flip falls outside the teacher-forcing ratio, processing
the supplied target sequence in a single batched pass otherwise. -/
theorem claim_C3_single_flip_mode_selection {σ ω : Type}
    (m : DecoderModel σ ω) (inputs : List (List Int))
    (eh eo : Option Tensor) (tfr : Rat) (rs : Nat → Rat) (pos : Nat) :
    (DecoderRNN.forward m inputs eh eo tfr rs pos).2 = pos + 1 ∧
    (∀ rs' : Nat → Rat, rs' pos = rs pos →
      DecoderRNN.forward m inputs eh eo tfr rs' pos =
        DecoderRNN.forward m inputs eh eo tfr rs pos) ∧
    ((m.use_attention = some AttnPlace.preRnn ∨ ¬ rs pos < tfr) →
      (DecoderRNN.forward m inputs eh eo tfr rs pos).1 =
        unrolledResult m inputs eh eo (decide (rs pos < tfr))) ∧
    (m.use_attention ≠ some AttnPlace.preRnn → rs pos < tfr →
      (DecoderRNN.forward m inputs eh eo tfr rs pos).1 =
        batchedResult m inputs eh eo) := by
  refine ⟨rfl, ?_, ?_, ?_⟩
  · intro rs' hsame
    unfold DecoderRNN.forward
    rw [hsame]
  · intro hcond
    simp only [DecoderRNN.forward, forwardCore]
    rcases hcond with hpre | hflip
    · rw [if_pos (Or.inl hpre)]
    · rw [if_pos (Or.inr (by simp [hflip]))]
  · intro hpre hflip
    simp only [DecoderRNN.forward, forwardCore]
    rw [if_neg]
    intro hcond
    rcases hcond with h | h
    · exact hpre h
    · rw [decide_eq_true hflip] at h
      cases h

/-- A concrete decoder module with pre-rnn attention, used to instantiate
the unrolled branch of the mode selection. -/
def demoPreRnnModel : DecoderModel Unit Unit :=
  { use_k_sparsity := false
    k_sparsity := 0
    k_sparsity_layers := none
    use_attention := some AttnPlace.preRnn
    eos_id := 0
    cell := fun _ h _ => (h, ())
    argmaxSym := fun _ => []
    initStateFn := fun _ => () }

/-- Witness for C3: with pre-rnn attention the call takes the unrolled
branch and advances the random stream by exactly one position; without
attention and with the draw inside the ratio it takes the batched branch. -/
theorem claim_C3_witness :
    (DecoderRNN.forward demoPreRnnModel [[1]] none none 1 (fun _ => 0) 5).2 = 6 ∧
    (DecoderRNN.forward demoPreRnnModel [[1]] none none 1 (fun _ => 0) 5).1 =
      unrolledResult demoPreRnnModel [[1]] none none (decide ((0 : Rat) < 1)) ∧
    (DecoderRNN.forward demoSparseModel [[1]] none none 1 (fun _ => 0) 5).1 =
      batchedResult demoSparseModel [[1]] none none :=
  ⟨(claim_C3_single_flip_mode_selection demoPreRnnModel [[1]] none none 1 (fun _ => 0) 5).1,
   (claim_C3_single_flip_mode_selection demoPreRnnModel [[1]] none none 1 (fun _ => 0) 5).2.2.1
     (Or.inl rfl),
   (claim_C3_single_flip_mode_selection demoSparseModel [[1]] none none 1 (fun _ => 0) 5).2.2.2
     (by decide) (by norm_num)⟩

/-! ## C4: the controller trace 0.5, 0.4, 0.3, 0.2 -/

/-- C4: feeding the metric values `0.5, 0.4, 0.3, 0.2` to a fresh
`KSParsityDecreaser` with `patience = 3`, `factor = 0.5` on a decoder with
`k_sparsity = 100` leaves `k` at `100` after each of the first three
observations; the fourth observation sets `k` to `50` and resets the
bad-epoch counter to `0`. -/
theorem claim_C4_controller_trace :
    (runEpochs (KSParsityDecreaser.new (1/2) 3 100) [1/2]).k_sparsity = 100 ∧
    (runEpochs (KSParsityDecreaser.new (1/2) 3 100) [1/2, 2/5]).k_sparsity = 100 ∧
    (runEpochs (KSParsityDecreaser.new (1/2) 3 100) [1/2, 2/5, 3/10]).k_sparsity = 100 ∧
    (runEpochs (KSParsityDecreaser.new (1/2) 3 100) [1/2, 2/5, 3/10, 1/5]).k_sparsity = 50 ∧
    (runEpochs (KSParsityDecreaser.new (1/2) 3 100) [1/2, 2/5, 3/10, 1/5]).num_bad_epochs = 0 := by
  have h1 : KSParsityDecreaser.on_epoch_end (KSParsityDecreaser.new (1/2) 3 100) (1/2) =
      ⟨1/2, 3, 1/2, 0, 100⟩ := by
    unfold KSParsityDecreaser.on_epoch_end KSParsityDecreaser.new
    norm_num
  have h2 : KSParsityDecreaser.on_epoch_end ⟨1/2, 3, 1/2, 0, 100⟩ (2/5) =
      ⟨1/2, 3, 1/2, 1, 100⟩ := by
    unfold KSParsityDecreaser.on_epoch_end
    norm_num
  have h3 : KSParsityDecreaser.on_epoch_end ⟨1/2, 3, 1/2, 1, 100⟩ (3/10) =
      ⟨1/2, 3, 1/2, 2, 100⟩ := by
    unfold KSParsityDecreaser.on_epoch_end
    norm_num
  have h4 : KSParsityDecreaser.on_epoch_end ⟨1/2, 3, 1/2, 2, 100⟩ (1/5) =
      ⟨1/2, 3, 1/2, 0, 50⟩ := by
    unfold KSParsityDecreaser.on_epoch_end
    norm_num
    have h50 : (50 : Rat) = ((50 : Int) : Rat) := by norm_num
    rw [h50, pyInt_intCast]
  simp only [runEpochs, List.foldl]
  rw [h1, h2, h3, h4]
  exact ⟨rfl, rfl, rfl, rfl, rfl⟩

/-! ## C7: k only ever decreases, and only the controller writes it -/

/-- One `on_epoch_end` call with a shrink factor in `(0, 1]` never increases
a non-negative `k`, keeps it non-negative, and leaves the configured factor
untouched. -/
theorem on_epoch_end_k_step (c : KSParsityDecreaser) (mv : Rat)
    (hf0 : 0 < c.factor) (hf1 : c.factor ≤ 1) (hk : 0 ≤ c.k_sparsity) :
    (c.on_epoch_end mv).k_sparsity ≤ c.k_sparsity ∧
    0 ≤ (c.on_epoch_end mv).k_sparsity ∧
    (c.on_epoch_end mv).factor = c.factor := by
  simp only [KSParsityDecreaser.on_epoch_end]
  have hkr : (0 : Rat) ≤ (c.k_sparsity : Rat) := by exact_mod_cast hk
  have hq0 : 0 ≤ c.factor * (c.k_sparsity : Rat) :=
    mul_nonneg (le_of_lt hf0) hkr
  have hqk : c.factor * (c.k_sparsity : Rat) ≤ (c.k_sparsity : Rat) := by
    calc c.factor * (c.k_sparsity : Rat) ≤ 1 * (c.k_sparsity : Rat) :=
        mul_le_mul_of_nonneg_right hf1 hkr
    _ = (c.k_sparsity : Rat) := one_mul _
  have hpy := pyInt_nonneg_le _ c.k_sparsity hq0 hqk
  by_cases hb : mv ≤ c.best
  · rw [if_pos hb]
    split
    · exact ⟨hpy.2, hpy.1, rfl⟩
    · exact ⟨le_refl _, hk, rfl⟩
  · rw [if_neg hb]
    split
    · exact ⟨hpy.2, hpy.1, rfl⟩
    · exact ⟨le_refl _, hk, rfl⟩

/-- Folding `on_epoch_end` over any metric sequence never increases a
non-negative `k`. -/
theorem runEpochs_k_le (ms : List Rat) :
    ∀ c : KSParsityDecreaser, 0 < c.factor → c.factor ≤ 1 →
      0 ≤ c.k_sparsity → (runEpochs c ms).k_sparsity ≤ c.k_sparsity := by
  induction ms with
  | nil => intro c _ _ _; exact le_refl _
  | cons mv ms ih =>
    intro c hf0 hf1 hk
    have hstep := on_epoch_end_k_step c mv hf0 hf1 hk
    have hrec := ih (c.on_epoch_end mv)
      (by rw [hstep.2.2]; exact hf0) (by rw [hstep.2.2]; exact hf1) hstep.2.1
    calc (runEpochs c (mv :: ms)).k_sparsity
        = (runEpochs (c.on_epoch_end mv) ms).k_sparsity := rfl
    _ ≤ (c.on_epoch_end mv).k_sparsity := hrec
    _ ≤ c.k_sparsity := hstep.1

/-- C7: across `on_epoch_end` calls with a shrink factor in `(0, 1]` the
decoder's `k_sparsity` never increases — neither on a single call nor over
any metric sequence — and `DecoderRNN.forward` itself leaves `k_sparsity`
exactly as it found it, so the controller is the sole writer. -/
theorem claim_C7_k_monotone {σ ω : Type} :
    (∀ (c : KSParsityDecreaser) (mv : Rat),
       0 < c.factor → c.factor ≤ 1 → 0 ≤ c.k_sparsity →
       (c.on_epoch_end mv).k_sparsity ≤ c.k_sparsity) ∧
    (∀ (c : KSParsityDecreaser) (ms : List Rat),
       0 < c.factor → c.factor ≤ 1 → 0 ≤ c.k_sparsity →
       (runEpochs c ms).k_sparsity ≤ c.k_sparsity) ∧
    (∀ (m : DecoderModel σ ω) (inputs : List (List Int))
       (eh eo : Option Tensor) (tfr : Rat) (rs : Nat → Rat) (pos : Nat),
       (DecoderRNN.forward m inputs eh eo tfr rs pos).1.modelAfter.k_sparsity
         = m.k_sparsity) := by
  refine ⟨?_, ?_, ?_⟩
  · intro c mv hf0 hf1 hk
    exact (on_epoch_end_k_step c mv hf0 hf1 hk).1
  · intro c ms hf0 hf1 hk
    exact runEpochs_k_le ms c hf0 hf1 hk
  · intro m inputs eh eo tfr rs pos
    simp only [DecoderRNN.forward, forwardCore]
    split
    · rfl
    · rfl

/-- Witness for C7 at the concrete trace of C4 and a concrete forward
call. -/
theorem claim_C7_witness :
    (runEpochs (KSParsityDecreaser.new (1/2) 3 100) [1/2, 2/5, 3/10, 1/5]).k_sparsity ≤ 100 ∧
    (DecoderRNN.forward demoSparseModel [[1]] none none 0 (fun _ => 0) 0).1.modelAfter.k_sparsity
      = demoSparseModel.k_sparsity :=
  ⟨(claim_C7_k_monotone (σ := Unit) (ω := Unit)).2.1
      (KSParsityDecreaser.new (1/2) 3 100) [1/2, 2/5, 3/10, 1/5]
      (by norm_num [KSParsityDecreaser.new]) (by norm_num [KSParsityDecreaser.new])
      (by norm_num [KSParsityDecreaser.new]),
   (claim_C7_k_monotone (σ := Unit) (ω := Unit)).2.2
      demoSparseModel [[1]] none none 0 (fun _ => 0) 0⟩

/-! ## C5/C6: properties of the top-k masking -/

theorem selGo_subset (xs : List Int) :
    ∀ (fuel : Nat) (avail : List Nat), selGo xs fuel avail ⊆ avail := by
  intro fuel
  induction fuel with
  | zero => intro avail; simp [selGo]
  | succ n ih =>
    intro avail
    simp only [selGo]
    cases hp : pickMax xs avail with
    | none => simp
    | some i =>
      intro c hc
      rcases List.mem_cons.mp hc with rfl | hcr
      · exact pickMax_mem hp
      · exact List.erase_subset _ _ (ih _ hcr)

theorem selGo_nodup (xs : List Int) :
    ∀ (fuel : Nat) (avail : List Nat), avail.Nodup →
      (selGo xs fuel avail).Nodup := by
  intro fuel
  induction fuel with
  | zero => intro avail _; simp [selGo]
  | succ n ih =>
    intro avail hnd
    simp only [selGo]
    cases hp : pickMax xs avail with
    | none => simp
    | some i =>
      refine List.nodup_cons.mpr ⟨?_, ih _ (hnd.erase i)⟩
      intro hmem
      exact hnd.not_mem_erase (selGo_subset xs n _ hmem)

theorem selGo_length (xs : List Int) :
    ∀ (fuel : Nat) (avail : List Nat),
      (selGo xs fuel avail).length = min fuel avail.length := by
  intro fuel
  induction fuel with
  | zero => intro avail; simp [selGo]
  | succ n ih =>
    intro avail
    simp only [selGo]
    cases hp : pickMax xs avail with
    | none =>
      rw [pickMax_eq_none.mp hp]
      simp
    | some i =>
      have hi : i ∈ avail := pickMax_mem hp
      have h1 : 1 ≤ avail.length := List.length_pos.mpr (List.ne_nil_of_mem hi)
      simp only [List.length_cons, ih, List.length_erase_of_mem hi]
      omega

theorem selGo_take_nonzero (xs : List Int) :
    ∀ (fuel : Nat) (avail : List Nat) (j : Nat),
      j ≤ avail.countP (fun a => decide (xs.getD a 0 ≠ 0)) →
      ∀ c ∈ (selGo xs fuel avail).take j, xs.getD c 0 ≠ 0 := by
  intro fuel
  induction fuel with
  | zero => intro avail j _; simp [selGo]
  | succ n ih =>
    intro avail j hj
    cases j with
    | zero => simp
    | succ j' =>
      have hpos : 0 < avail.countP (fun a => decide (xs.getD a 0 ≠ 0)) := by omega
      obtain ⟨a, ha, hpa⟩ := List.countP_pos_iff.mp hpos
      cases hp : pickMax xs avail with
      | none =>
        rw [pickMax_eq_none.mp hp] at ha
        simp at ha
      | some i =>
        have hine : xs.getD i 0 ≠ 0 := by
          have hpa' : xs.getD a 0 ≠ 0 := of_decide_eq_true hpa
          have h1 : 0 < (xs.getD a 0).natAbs := Int.natAbs_pos.mpr hpa'
          have h2 : 0 < (xs.getD i 0).natAbs :=
            lt_of_lt_of_le h1 (pickMax_is_max hp a ha)
          exact Int.natAbs_pos.mp h2
        have hcount : j' ≤ (avail.erase i).countP (fun a => decide (xs.getD a 0 ≠ 0)) := by
          have hperm := List.perm_cons_erase (pickMax_mem hp)
          have hcp := hperm.countP_eq (fun a => decide (xs.getD a 0 ≠ 0))
          rw [List.countP_cons] at hcp
          rw [if_pos (decide_eq_true hine)] at hcp
          omega
        simp only [selGo, hp, List.take_succ_cons]
        intro c hc
        rcases List.mem_cons.mp hc with rfl | hcr
        · exact hine
        · exact ih _ j' hcount c hcr

/-- The number of positions of `xs` holding a non-zero entry is the number
of non-zero entries. -/
theorem countP_range_nonzero (xs : List Int) :
    (List.range xs.length).countP (fun j => decide (xs.getD j 0 ≠ 0)) = countNZ xs := by
  induction xs with
  | nil => simp [countNZ]
  | cons x xs ih =>
    rw [List.length_cons, List.range_succ_eq_map, List.countP_cons, List.countP_map]
    have hcongr : (List.range xs.length).countP
          ((fun j => decide ((x :: xs).getD j 0 ≠ 0)) ∘ Nat.succ)
        = (List.range xs.length).countP (fun j => decide (xs.getD j 0 ≠ 0)) := by
      apply List.countP_congr
      intro a _
      simp [Function.comp, List.getD_cons_succ]
    rw [hcongr, ih]
    simp [countNZ, List.countP_cons, List.getD_cons_zero]

theorem selOrder_nodup (xs : List Int) : (selOrder xs).Nodup :=
  selGo_nodup xs _ _ (List.nodup_range _)

theorem selOrder_mem_lt (xs : List Int) {j : Nat} (hj : j ∈ selOrder xs) :
    j < xs.length :=
  List.mem_range.mp (selGo_subset xs _ _ hj)

theorem selOrder_length (xs : List Int) : (selOrder xs).length = xs.length := by
  unfold selOrder
  rw [selGo_length, List.length_range]
  exact Nat.min_self _

theorem topkIdx_nodup (k : Nat) (xs : List Int) : (topkIdx k xs).Nodup :=
  (List.take_sublist k _).nodup (selOrder_nodup xs)

theorem topkIdx_mem_lt (k : Nat) (xs : List Int) {j : Nat}
    (hj : j ∈ topkIdx k xs) : j < xs.length :=
  selOrder_mem_lt xs (List.take_subset _ _ hj)

theorem topkIdx_length (k : Nat) (xs : List Int) (hk : k ≤ xs.length) :
    (topkIdx k xs).length = k := by
  unfold topkIdx
  rw [List.length_take, selOrder_length]
  omega

theorem topkIdx_nonzero (k : Nat) (xs : List Int) (hnz : k ≤ countNZ xs) :
    ∀ c ∈ topkIdx k xs, xs.getD c 0 ≠ 0 := by
  intro c hc
  apply selGo_take_nonzero xs xs.length (List.range xs.length) k _ c hc
  rw [countP_range_nonzero]
  exact hnz

theorem maskRow_length (k : Nat) (xs : List Int) :
    (maskRow k xs).length = xs.length := by
  simp [maskRow]

theorem maskRow_getD (k : Nat) (xs : List Int) (j : Nat) (hj : j < xs.length) :
    (maskRow k xs).getD j 0 =
      xs.getD j 0 * (if j ∈ topkIdx k xs then 1 else 0) := by
  unfold maskRow
  rw [List.getD_eq_getElem _ _ (by simpa using hj)]
  rw [List.getElem_map]
  rw [List.getElem_range]

/-- The non-zero entries of a masked row counted as the kept positions whose
original entry was non-zero. -/
theorem countNZ_maskRow (k : Nat) (xs : List Int) :
    countNZ (maskRow k xs) =
      ((List.range xs.length).filter
        (fun j => decide (j ∈ topkIdx k xs) && decide (xs.getD j 0 ≠ 0))).length := by
  unfold countNZ maskRow
  rw [List.countP_map, ← List.countP_eq_length_filter]
  apply List.countP_congr
  intro j _
  by_cases hm : j ∈ topkIdx k xs <;> simp [Function.comp, hm]

/-- C5: for every tensor row of the configured sparsity layer and every `k`
not exceeding the row's width, the top-k masking of `DecoderRNN.forward`
(whose per-row action on the tensor is `maskRow`) leaves at most `k`
non-zero entries in the row, and exactly `k` whenever the row originally has
at least `k` non-zero entries. -/
theorem claim_C5_topk_row_sparsity (t : Tensor) (k : Nat) (row : List Int)
    (hrow : row ∈ t) (hk : k ≤ row.length) :
    maskRow k row ∈ sparsityGate k t ∧
    countNZ (maskRow k row) ≤ k ∧
    (k ≤ countNZ row → countNZ (maskRow k row) = k) := by
  refine ⟨List.mem_map_of_mem (maskRow k) hrow, ?_, ?_⟩
  · rw [countNZ_maskRow]
    have hnodup : ((List.range row.length).filter
        (fun j => decide (j ∈ topkIdx k row) && decide (row.getD j 0 ≠ 0))).Nodup :=
      (List.nodup_range _).filter _
    have hsub : ((List.range row.length).filter
        (fun j => decide (j ∈ topkIdx k row) && decide (row.getD j 0 ≠ 0)))
          ⊆ topkIdx k row := by
      intro j hj
      have := List.of_mem_filter hj
      simp at this
      exact this.1
    calc ((List.range row.length).filter _).length
        ≤ (topkIdx k row).length := (hnodup.subperm hsub).length_le
    _ ≤ k := List.length_take_le k _
  · intro hnz
    rw [countNZ_maskRow]
    have hall := topkIdx_nonzero k row hnz
    have hnodup : ((List.range row.length).filter
        (fun j => decide (j ∈ topkIdx k row) && decide (row.getD j 0 ≠ 0))).Nodup :=
      (List.nodup_range _).filter _
    have hperm : List.Perm
        ((List.range row.length).filter
          (fun j => decide (j ∈ topkIdx k row) && decide (row.getD j 0 ≠ 0)))
        (topkIdx k row) := by
      rw [List.perm_ext_iff_of_nodup hnodup (topkIdx_nodup k row)]
      intro j
      constructor
      · intro hj
        have := List.of_mem_filter hj
        simp at this
        exact this.1
      · intro hj
        refine List.mem_filter.mpr ⟨List.mem_range.mpr (topkIdx_mem_lt k row hj), ?_⟩
        simp only [Bool.and_eq_true, decide_eq_true_eq]
        exact ⟨hj, hall j hj⟩
    rw [hperm.length_eq, topkIdx_length k row hk]

/-- Witness for C5 at a concrete row with three non-zero entries and
`k = 2`. -/
theorem claim_C5_witness :
    maskRow 2 [3, 0, -2, 5] ∈ sparsityGate 2 [[3, 0, -2, 5]] ∧
    countNZ (maskRow 2 [3, 0, -2, 5]) ≤ 2 ∧
    (2 ≤ countNZ [3, 0, -2, 5] → countNZ (maskRow 2 [3, 0, -2, 5]) = 2) :=
  claim_C5_topk_row_sparsity [[3, 0, -2, 5]] 2 [3, 0, -2, 5]
    (by decide) (by decide)

/-- C6: monotone sparsification — with `k₁ > k₂ ≥ 1` and `k₁` within the
row width, every position left non-zero by the top-k masking with `k₂` is
also left non-zero by the masking with `k₁`. -/
theorem claim_C6_monotone_sparsification (xs : List Int) (k1 k2 j : Nat)
    (h21 : k2 < k1) (_h2 : 1 ≤ k2) (_h1 : k1 ≤ xs.length)
    (hnz : (maskRow k2 xs).getD j 0 ≠ 0) :
    (maskRow k1 xs).getD j 0 ≠ 0 := by
  have hj : j < xs.length := by
    by_contra hge
    rw [List.getD_eq_default _ _ (by rw [maskRow_length]; omega)] at hnz
    exact hnz rfl
  rw [maskRow_getD _ _ _ hj] at hnz
  rw [maskRow_getD _ _ _ hj]
  by_cases hm2 : j ∈ topkIdx k2 xs
  · have hx : xs.getD j 0 ≠ 0 := by
      rw [if_pos hm2, mul_one] at hnz
      exact hnz
    have hm1 : j ∈ topkIdx k1 xs := by
      have hsub : topkIdx k2 xs ⊆ topkIdx k1 xs := by
        unfold topkIdx
        intro c hc
        have htt : (selOrder xs).take k2 = ((selOrder xs).take k1).take k2 := by
          rw [List.take_take, Nat.min_eq_left (le_of_lt h21)]
        rw [htt] at hc
        exact List.take_subset _ _ hc
      exact hsub hm2
    rw [if_pos hm1, mul_one]
    exact hx
  · rw [if_neg hm2, mul_zero] at hnz
    exact absurd rfl hnz

/-- Witness for C6: position `0` survives masking with `k₂ = 1` and hence
with `k₁ = 2`. -/
theorem claim_C6_witness : (maskRow 2 [4, 1, 3]).getD 0 0 ≠ 0 :=
  claim_C6_monotone_sparsification [4, 1, 3] 2 1 0
    (by decide) (by decide) (by decide) (by decide)

/-! ## C1: batched pass ≡ forced unroll under full teacher forcing -/

/-- With teacher forcing on, the unrolled loop from step `di` for `n` steps
is exactly the batched recurrent pass over positions `di, …, di+n-1`
followed by the per-position decode loop. -/
theorem unrollLoop_teacher_forcing {σ ω : Type} (cellE : σ → List Int → σ × ω)
    (eos : Int) (am : ω → List Int) (inputs : List (List Int)) :
    ∀ (n di : Nat) (h : σ) (symbols : List Int) (s : DecState ω),
      di + n ≤ inputs.length →
      unrollLoop cellE eos am true inputs di n h symbols s =
        ((runSteps cellE h ((inputs.drop di).take n)).2,
         runDecode eos am di s (runSteps cellE h ((inputs.drop di).take n)).1) := by
  intro n
  induction n with
  | zero =>
    intro di h symbols s _
    simp [unrollLoop, runSteps, runDecode]
  | succ n ih =>
    intro di h symbols s hle
    have hdi : di < inputs.length := by omega
    rw [List.drop_eq_getElem_cons hdi, List.take_succ_cons]
    simp only [unrollLoop]
    rw [if_pos (Or.inr trivial)]
    rw [List.getD_eq_getElem _ _ hdi]
    simp only [runSteps]
    rw [ih (di + 1) _ _ _ (by omega)]
    simp only [runDecode]

/-- C1: with `teacher_forcing_ratio = 1.0` (so the per-call draw always
lands inside the ratio) and attention disabled or post-rnn, the actual
`forward` call — which takes the batched branch, one recurrent call over
`inputs[:, :-1]` — returns exactly what the artificially forced step-by-step
unrolling returns: identical per-step output distributions (and identical
hidden state, symbols and lengths), given the same module and the same
random draw. -/
theorem claim_C1_batched_equals_forced_unroll {σ ω : Type}
    (m : DecoderModel σ ω) (inputs : List (List Int))
    (eh eo : Option Tensor) (rs : Nat → Rat) (pos : Nat)
    (hattn : m.use_attention ≠ some AttnPlace.preRnn)
    (hdraw : rs pos < 1) :
    (DecoderRNN.forward m inputs eh eo 1 rs pos).1 =
      unrolledResult m inputs eh eo true := by
  have huTF : decide (rs pos < (1 : Rat)) = true := decide_eq_true hdraw
  simp only [DecoderRNN.forward, forwardCore, huTF]
  rw [if_neg (by simp [hattn])]
  simp only [batchedResult, unrolledResult, validatedSizes]
  rw [unrollLoop_teacher_forcing (m.cell (maskTensors m eh eo).2) m.eos_id
    m.argmaxSym inputs (inputs.length - 1) 0
    (m.initStateFn (maskTensors m eh eo).1) []
    (initDecState ω (inputs.headD []).length (inputs.length - 1))
    (by omega)]
  rw [List.drop_zero, ← List.dropLast_eq_take]

/-- A concrete decoder module with a non-trivial recurrent cell, used to
instantiate the dual-mode equivalence. -/
def demoCellModel : DecoderModel Int (List Int) :=
  { use_k_sparsity := false
    k_sparsity := 0
    k_sparsity_layers := none
    use_attention := none
    eos_id := 2
    cell := fun _ h x => (h + x.headD 0, x.map (fun v => v + h))
    argmaxSym := fun o => o
    initStateFn := fun _ => 0 }

/-- Witness for C1 at a concrete three-position batch. -/
theorem claim_C1_witness :
    (DecoderRNN.forward demoCellModel [[1], [5], [2]] none none 1 (fun _ => 0) 0).1 =
      unrolledResult demoCellModel [[1], [5], [2]] none none true :=
  claim_C1_batched_equals_forced_unroll demoCellModel [[1], [5], [2]] none none
    (fun _ => 0) 0 (by decide) (by norm_num)

/-! ## C2: length recording -/

/-- The first step (0-indexed) at which example `i` of a stream of step
outputs is decoded to the end-of-sequence symbol, if any. -/
def firstEosStep (eos : Int) (am : ω → List Int) (i : Nat) : List ω → Option Nat
  | [] => none
  | o :: os =>
    if (am o).getD i 0 = eos then some 0
    else (firstEosStep eos am i os).map (fun q => q + 1)

theorem firstEosStep_eq_some {ω : Type} {eos : Int} {am : ω → List Int} {i : Nat} :
    ∀ {outs : List ω} {p : Nat}, firstEosStep eos am i outs = some p →
      ∃ pre o post, outs = pre ++ o :: post ∧ pre.length = p ∧
        (am o).getD i 0 = eos ∧ ∀ o' ∈ pre, (am o').getD i 0 ≠ eos := by
  intro outs
  induction outs with
  | nil => intro p h; simp [firstEosStep] at h
  | cons o os ih =>
    intro p h
    simp only [firstEosStep] at h
    by_cases hpred : (am o).getD i 0 = eos
    · rw [if_pos hpred] at h
      cases h
      exact ⟨[], o, os, rfl, rfl, hpred, by simp⟩
    · rw [if_neg hpred] at h
      cases hfe : firstEosStep eos am i os with
      | none => rw [hfe] at h; simp at h
      | some q =>
        rw [hfe] at h
        simp at h
        obtain ⟨pre, o', post, h1, h2, h3, h4⟩ := ih hfe
        refine ⟨o :: pre, o', post, by rw [h1]; rfl, ?_, h3, ?_⟩
        · simp only [List.length_cons, h2]
          omega
        · intro o'' ho''
          rcases List.mem_cons.mp ho'' with rfl | hmem
          · exact hpred
          · exact h4 o'' hmem

theorem decode_lengths_len {ω : Type} (eos : Int) (am : ω → List Int)
    (di : Nat) (o : ω) (s : DecState ω) :
    ((decode eos am di o s).1).lengths.length =
      min s.lengths.length (am o).length := by
  simp [decode, List.length_zipWith]

theorem decode_seq_len {ω : Type} (eos : Int) (am : ω → List Int)
    (di : Nat) (o : ω) (s : DecState ω) :
    ((decode eos am di o s).1).sequence_symbols.length =
      s.sequence_symbols.length + 1 := by
  simp [decode]

theorem decode_lengths_getD {ω : Type} (eos : Int) (am : ω → List Int)
    (di : Nat) (o : ω) (s : DecState ω) (i : Nat) (d : Nat)
    (hi1 : i < s.lengths.length) (hi2 : i < (am o).length) :
    ((decode eos am di o s).1).lengths.getD i d =
      if di < s.lengths.getD i d ∧ (am o).getD i 0 = eos
      then s.sequence_symbols.length + 1 else s.lengths.getD i d := by
  simp only [decode]
  have hlen : i < (List.zipWith
      (fun l e => if di < l ∧ e = true
        then (s.sequence_symbols ++ [am o]).length else l)
      s.lengths ((am o).map fun sy => decide (sy = eos))).length := by
    rw [List.length_zipWith, List.length_map]
    omega
  rw [List.getD_eq_getElem _ _ hlen, List.getElem_zipWith]
  rw [List.getElem_map]
  rw [List.getD_eq_getElem s.lengths d hi1, List.getD_eq_getElem (am o) 0 hi2]
  simp [decide_eq_true_eq]

theorem runDecode_lengths_len {ω : Type} (eos : Int) (am : ω → List Int) (b : Nat) :
    ∀ (outs : List ω) (di : Nat) (s : DecState ω),
      s.lengths.length = b → (∀ o ∈ outs, (am o).length = b) →
      (runDecode eos am di s outs).lengths.length = b := by
  intro outs
  induction outs with
  | nil => intro di s hs _; exact hs
  | cons o os ih =>
    intro di s hs hlen
    simp only [runDecode]
    apply ih (di + 1)
    · rw [decode_lengths_len, hs, hlen o (List.mem_cons_self o os)]
      exact Nat.min_self b
    · exact fun o' ho' => hlen o' (List.mem_cons_of_mem _ ho')

theorem runDecode_seq_len {ω : Type} (eos : Int) (am : ω → List Int) :
    ∀ (outs : List ω) (di : Nat) (s : DecState ω),
      (runDecode eos am di s outs).sequence_symbols.length =
        s.sequence_symbols.length + outs.length := by
  intro outs
  induction outs with
  | nil => intro di s; simp [runDecode]
  | cons o os ih =>
    intro di s
    simp only [runDecode, List.length_cons]
    rw [ih (di + 1), decode_seq_len]
    omega

theorem runDecode_append {ω : Type} (eos : Int) (am : ω → List Int) :
    ∀ (xs ys : List ω) (di : Nat) (s : DecState ω),
      runDecode eos am di s (xs ++ ys) =
        runDecode eos am (di + xs.length) (runDecode eos am di s xs) ys := by
  intro xs
  induction xs with
  | nil => intro ys di s; simp [runDecode]
  | cons x xs ih =>
    intro ys di s
    simp only [List.cons_append, runDecode, List.length_cons, List.append_eq]
    rw [ih]
    have harith : di + 1 + xs.length = di + (xs.length + 1) := by omega
    rw [harith]

theorem runDecode_entry_no_eos {ω : Type} (eos : Int) (am : ω → List Int)
    (b i d : Nat) (hib : i < b) :
    ∀ (outs : List ω) (di : Nat) (s : DecState ω),
      s.lengths.length = b → (∀ o ∈ outs, (am o).length = b) →
      (∀ o ∈ outs, (am o).getD i 0 ≠ eos) →
      (runDecode eos am di s outs).lengths.getD i d = s.lengths.getD i d := by
  intro outs
  induction outs with
  | nil => intro di s _ _ _; rfl
  | cons o os ih =>
    intro di s hs hlen hne
    have ho : (am o).length = b := hlen o (List.mem_cons_self o os)
    have hs2 : ((decode eos am di o s).1).lengths.length = b := by
      rw [decode_lengths_len, hs, ho]
      exact Nat.min_self b
    have hstep : ((decode eos am di o s).1).lengths.getD i d = s.lengths.getD i d := by
      rw [decode_lengths_getD eos am di o s i d (by omega) (by omega)]
      rw [if_neg]
      intro hcond
      exact hne o (List.mem_cons_self o os) hcond.2
    simp only [runDecode]
    rw [ih (di + 1) _ hs2
      (fun o' ho' => hlen o' (List.mem_cons_of_mem _ ho'))
      (fun o' ho' => hne o' (List.mem_cons_of_mem _ ho'))]
    exact hstep

theorem runDecode_entry_stable {ω : Type} (eos : Int) (am : ω → List Int)
    (b i d : Nat) (hib : i < b) :
    ∀ (outs : List ω) (di : Nat) (s : DecState ω),
      s.lengths.length = b → (∀ o ∈ outs, (am o).length = b) →
      s.lengths.getD i d ≤ di →
      (runDecode eos am di s outs).lengths.getD i d = s.lengths.getD i d := by
  intro outs
  induction outs with
  | nil => intro di s _ _ _; rfl
  | cons o os ih =>
    intro di s hs hlen hle
    have ho : (am o).length = b := hlen o (List.mem_cons_self o os)
    have hs2 : ((decode eos am di o s).1).lengths.length = b := by
      rw [decode_lengths_len, hs, ho]
      exact Nat.min_self b
    have hstep : ((decode eos am di o s).1).lengths.getD i d = s.lengths.getD i d := by
      rw [decode_lengths_getD eos am di o s i d (by omega) (by omega)]
      rw [if_neg]
      intro hcond
      exact absurd hcond.1 (Nat.not_lt.mpr hle)
    simp only [runDecode]
    rw [ih (di + 1) _ hs2
      (fun o' ho' => hlen o' (List.mem_cons_of_mem _ ho'))
      (by rw [hstep]; omega)]
    exact hstep

/-- The core length-recording fact: starting from the initial state, if the
decoded symbol stream of example `i` first shows the end-of-sequence id at
step `p`, then after any number `t > p` of decoded steps the recorded length
of example `i` is exactly `p + 1`. -/
theorem runDecode_first_eos {ω : Type} (eos : Int) (am : ω → List Int)
    (b maxlen : Nat) (outs : List ω) (i p t : Nat)
    (hlen : ∀ o ∈ outs, (am o).length = b) (hib : i < b)
    (hml : outs.length ≤ maxlen)
    (hfe : firstEosStep eos am i outs = some p)
    (hpt : p < t) (ht : t ≤ outs.length) :
    ((runDecode eos am 0 (initDecState ω b maxlen) (outs.take t)).lengths).getD i 0
      = p + 1 := by
  obtain ⟨pre, o, post, houts, hplen, heos, hpre⟩ := firstEosStep_eq_some hfe
  subst houts
  have hp_lt_maxlen : p < maxlen := by
    rw [List.length_append, List.length_cons] at hml
    omega
  have htake : (pre ++ o :: post).take t = pre ++ o :: post.take (t - p - 1) := by
    rw [List.take_append_eq_append_take,
      List.take_of_length_le (by omega : pre.length ≤ t), hplen]
    obtain ⟨mrest, hm⟩ : ∃ mrest, t - p = mrest + 1 := ⟨t - p - 1, by omega⟩
    rw [hm, List.take_succ_cons]
    simp
  rw [htake, runDecode_append]
  have hinitlen : (initDecState ω b maxlen).lengths.length = b := by
    simp [initDecState]
  have hpre_lens : ∀ o' ∈ pre, (am o').length = b :=
    fun o' h => hlen o' (List.mem_append_left _ h)
  have hs1len :
      (runDecode eos am 0 (initDecState ω b maxlen) pre).lengths.length = b :=
    runDecode_lengths_len eos am b pre 0 _ hinitlen hpre_lens
  have hinit_entry : (initDecState ω b maxlen).lengths.getD i 0 = maxlen := by
    simp only [initDecState]
    rw [List.getD_eq_getElem _ _ (by simpa using hib)]
    simp
  have hs1entry :
      (runDecode eos am 0 (initDecState ω b maxlen) pre).lengths.getD i 0
        = maxlen := by
    rw [runDecode_entry_no_eos eos am b i 0 hib pre 0 _ hinitlen hpre_lens hpre]
    exact hinit_entry
  have hs1seq :
      (runDecode eos am 0 (initDecState ω b maxlen) pre).sequence_symbols.length
        = p := by
    rw [runDecode_seq_len]
    simp [initDecState, hplen]
  have ho_mem : o ∈ pre ++ o :: post :=
    List.mem_append_right _ (List.mem_cons_self o post)
  have hob : (am o).length = b := hlen o ho_mem
  simp only [runDecode]
  have hstep :
      ((decode eos am (0 + pre.length) o
          (runDecode eos am 0 (initDecState ω b maxlen) pre)).1).lengths.getD i 0
        = p + 1 := by
    rw [decode_lengths_getD eos am _ o _ i 0 (by omega) (by omega)]
    rw [if_pos]
    · rw [hs1seq]
    · rw [hs1entry, hplen]
      exact ⟨by omega, heos⟩
  have hs2len :
      ((decode eos am (0 + pre.length) o
          (runDecode eos am 0 (initDecState ω b maxlen) pre)).1).lengths.length
        = b := by
    rw [decode_lengths_len, hs1len, hob]
    exact Nat.min_self b
  rw [runDecode_entry_stable eos am b i 0 hib _ _ _ hs2len
    (fun o' ho' => hlen o'
      (List.mem_append_right _
        (List.mem_cons_of_mem _ (List.take_subset _ _ ho'))))
    (by rw [hstep, hplen]; omega)]
  exact hstep

/-- The decode bookkeeping of the unrolled branch is exactly `runDecode`
applied to the stream of outputs the branch generates: the closure `decode`
only feeds back the greedy symbols of the output it was just given. -/
theorem unrollLoop_snd_eq {σ ω : Type} (cellE : σ → List Int → σ × ω)
    (eos : Int) (am : ω → List Int) (useTF : Bool) (inputs : List (List Int)) :
    ∀ (n di : Nat) (h : σ) (symbols : List Int) (s : DecState ω),
      (unrollLoop cellE eos am useTF inputs di n h symbols s).2 =
        runDecode eos am di s
          (unrollOutputs cellE am useTF inputs di n h symbols) := by
  intro n
  induction n with
  | zero => intro di h symbols s; rfl
  | succ n ih =>
    intro di h symbols s
    simp only [unrollLoop, unrollOutputs, runDecode]
    rw [ih]
    rfl

/-- C2: every example's recorded length starts at the maximum decode length;
if the decoded symbol sequence of an example first shows the end-of-sequence
id at step `p`, the recorded length is set to `p + 1` at that step and is
never changed by any later step (here: it equals `p + 1` after every number
`t > p` of decoded steps); and both execution modes go through the very same
`runDecode` bookkeeping over their own output streams — the batched branch by
construction, the unrolled branch because its per-step `decode` calls only
feed back the greedy symbols of the step output. -/
theorem claim_C2_length_recording {σ ω : Type} (eos : Int) (am : ω → List Int)
    (b maxlen : Nat) :
    (initDecState ω b maxlen).lengths = List.replicate b maxlen ∧
    (∀ (outs : List ω) (i p t : Nat),
      (∀ o ∈ outs, (am o).length = b) → i < b → outs.length ≤ maxlen →
      firstEosStep eos am i outs = some p → p < t → t ≤ outs.length →
      ((runDecode eos am 0 (initDecState ω b maxlen) (outs.take t)).lengths).getD i 0
        = p + 1) ∧
    (∀ (m : DecoderModel σ ω) (inputs : List (List Int))
       (eh eo : Option Tensor) (useTF : Bool),
      (unrolledResult m inputs eh eo useTF).ret_lengths =
        (runDecode m.eos_id m.argmaxSym 0
          (initDecState ω (validatedSizes inputs).1 (validatedSizes inputs).2)
          (unrollOutputs (m.cell (maskTensors m eh eo).2) m.argmaxSym useTF
            inputs 0 (validatedSizes inputs).2
            (m.initStateFn (maskTensors m eh eo).1) [])).lengths) ∧
    (∀ (m : DecoderModel σ ω) (inputs : List (List Int))
       (eh eo : Option Tensor),
      (batchedResult m inputs eh eo).ret_lengths =
        (runDecode m.eos_id m.argmaxSym 0
          (initDecState ω (validatedSizes inputs).1 (validatedSizes inputs).2)
          (runSteps (m.cell (maskTensors m eh eo).2)
            (m.initStateFn (maskTensors m eh eo).1) inputs.dropLast).1).lengths) := by
  refine ⟨rfl, ?_, ?_, ?_⟩
  · intro outs i p t hlen hib hml hfe hpt ht
    exact runDecode_first_eos eos am b maxlen outs i p t hlen hib hml hfe hpt ht
  · intro m inputs eh eo useTF
    simp only [unrolledResult]
    rw [unrollLoop_snd_eq]
  · intro m inputs eh eo
    rfl

/-- Witness for C2: one example (`b = 1`), end-of-sequence id `7` first
decoded at step `1`, maximum length `3`; after all three steps the recorded
length is `2`. -/
theorem claim_C2_witness :
    ((runDecode 7 (fun o => o) 0 (initDecState (List Int) 1 3)
      (([[0], [7], [7]] : List (List Int)).take 3)).lengths).getD 0 0 = 2 :=
  (claim_C2_length_recording (σ := Unit) 7 (fun o => o) 1 3).2.1
    [[0], [7], [7]] 0 1 3 (by decide) (by decide) (by decide) (by decide)
    (by decide) (by decide)
